import Mathlib

/-!
Verification of the ref-merging core of `react-19-use-merge-ref`
(file `src/react18/src/use-merged-ref.ts`).

The embedding models the two core functions, `assignRef` and `mergeRefs`,
as explicit state-passing programs.  A ref handle is one of the three
shapes of `PossibleRef<T>`: absent, a callback function, or a mutable
object with a `current` field.  Callback behaviour is instrumented: every
invocation of a callback, every invocation of a captured cleanup function
and every assignment to a mutable cell is recorded as an `Event` in a
trace; cleanup functions are identified by tokens minted from a counter,
so that distinct cleanup closures created by the same callback at
different invocations are distinguishable.  A callback may be marked as
raising an exception when invoked, and likewise the cleanup it returns;
execution is therefore in `Except`, the error carrying the state at the
point the exception escaped, which models ordinary JS exception
propagation out of `forEach`.
-/

namespace MergeRef

/-- Shape of one entry of the `refs` list of `mergeRefs`
(source: `type PossibleRef<T> = Ref<T> | undefined`, use-merged-ref.ts:3).
`undef` covers an absent handle (`undefined` or `null`).
`callback i ret thr cthr` is a function-shaped ref instrumented on channel
`i`: when invoked it records a `call` event, then raises iff `thr = true`,
and otherwise returns a freshly minted cleanup function iff `ret = true`
(that cleanup itself raises when invoked iff `cthr = true`).
`cellRef i` is a mutable ref object with a `current` field, channel `i`.
Two handles are the same JS object (hence the same `Map` key) exactly when
they are equal values of this type. -/
inductive PossibleRef : Type where
  | undef : PossibleRef
  | callback (i : Nat) (ret : Bool) (thr : Bool) (cthr : Bool) : PossibleRef
  | cellRef (i : Nat) : PossibleRef
deriving DecidableEq, Repr

/-- A cleanup function value returned by a callback ref: identified by the
token minted at its creation; invoking it raises iff `cthr = true`. -/
structure Cleanup : Type where
  token : Nat
  cthr : Bool
deriving DecidableEq, Repr

/-- Observable events of a run: a callback ref invoked with an argument
(`none` models the JS `null`), a captured cleanup function invoked, a
mutable cell assigned. -/
inductive Event (V : Type) : Type where
  | call (i : Nat) (arg : Option V) : Event V
  | cleanupRun (token : Nat) : Event V
  | cellWrite (i : Nat) (arg : Option V) : Event V
deriving DecidableEq, Repr

/-- Instrumentation state threaded through a run: the event trace so far,
and the counter minting cleanup tokens. -/
structure World (V : Type) : Type where
  trace : List (Event V)
  fresh : Nat
deriving DecidableEq, Repr

/-- The `cleanupMap` of `mergeRefs` (use-merged-ref.ts:22), a JS `Map`
from ref handle to captured cleanup: an association list with unique keys.
A stored value `some c` models a stored cleanup function; `none` models
the stored `null` marker (`assignRef(...) ?? null`). -/
abbrev CleanupMap : Type := List (PossibleRef × Option Cleanup)

/-- JS `Map.set`: update the entry of an existing key in place, otherwise
append the new entry at the end. -/
def mapSet (m : CleanupMap) (k : PossibleRef) (v : Option Cleanup) : CleanupMap :=
  match m with
  | [] => [(k, v)]
  | (k₁, v₁) :: rest => if k₁ = k then (k, v) :: rest else (k₁, v₁) :: mapSet rest k v

/-- JS `Map.get`: `some v` when the key is present with stored value `v`,
`none` when absent (JS `undefined`). -/
def mapGet (m : CleanupMap) (k : PossibleRef) : Option (Option Cleanup) :=
  match m with
  | [] => none
  | (k₁, v₁) :: rest => if k₁ = k then some v₁ else mapGet rest k

variable {V : Type}

/-- Append one event to the trace. -/
def push (e : Event V) (w : World V) : World V :=
  ⟨w.trace ++ [e], w.fresh⟩

/-- Embedding of `assignRef` (use-merged-ref.ts:7-13):
if the ref is a function, invoke it with the value and return exactly its
result; else if it is a non-null object with a `current` field, assign the
field; else do nothing.  A raising callback records its `call` event (it
was invoked) and then propagates the exception. -/
def assignRef (ref : PossibleRef) (value : Option V) (w : World V) :
    Except (World V) (World V × Option Cleanup) :=
  match ref with
  | .callback i ret thr cthr =>
    let w₁ := push (.call i value) w
    if thr then .error w₁
    else if ret then .ok (⟨w₁.trace, w₁.fresh + 1⟩, some ⟨w₁.fresh, cthr⟩)
    else .ok (w₁, none)
  | .cellRef i => .ok (push (.cellWrite i value) w, none)
  | .undef => .ok (w, none)

/-- The non-null branch of the merged ref (use-merged-ref.ts:25-28):
`refs.forEach((ref) => cleanupMap.set(ref, assignRef(ref, node) ?? null))`.
An exception aborts the remaining iteration; the `set` of the raising step
is not executed. -/
def attachAll (refs : List PossibleRef) (node : V) (m : CleanupMap) (w : World V) :
    Except (CleanupMap × World V) (CleanupMap × World V) :=
  match refs with
  | [] => .ok (m, w)
  | r :: rest =>
    match assignRef r (some node) w with
    | .error w₁ => .error (m, w₁)
    | .ok (w₁, c) => attachAll rest node (mapSet m r c) w₁

/-- The loop of the null branch (use-merged-ref.ts:30-37): for each ref,
if the stored cleanup is truthy (an actual function) invoke it, otherwise
fall back to `assignRef(ref, null)`.  The map is not modified here; the
`clear()` after the loop lives in `mergeRefs`. -/
def detachLoop (refs : List PossibleRef) (m : CleanupMap) (w : World V) :
    Except (World V) (World V) :=
  match refs with
  | [] => .ok w
  | r :: rest =>
    match mapGet m r with
    | some (some c) =>
      let w₁ := push (.cleanupRun c.token) w
      if c.cthr then .error w₁ else detachLoop rest m w₁
    | _ =>
      match assignRef r none w with
      | .error w₁ => .error w₁
      | .ok (w₁, _) => detachLoop rest m w₁

/-- Embedding of the combined handle returned by `mergeRefs`
(use-merged-ref.ts:24-40).  The captured mutable state (the `cleanupMap`
and the instrumentation world) is passed and returned explicitly.
Invoked with `some v` it runs the attach branch; with `none` it runs the
detach loop and then `cleanupMap.clear()`.  If the detach loop raises, the
`clear()` is not executed and the map is left as it was. -/
def mergeRefs (refs : List PossibleRef) (node : Option V) (m : CleanupMap) (w : World V) :
    Except (CleanupMap × World V) (CleanupMap × World V) :=
  match node with
  | some v => attachAll refs v m w
  | none =>
    match detachLoop refs m w with
    | .error w₁ => .error (m, w₁)
    | .ok w₁ => .ok ([], w₁)

/-- The value held by the `current` field of the mutable cell on channel
`i` after the events `tr`, starting from `init`: the argument of the last
`cellWrite i` event, if any. -/
def cellValueFrom (init : Option V) (tr : List (Event V)) (i : Nat) : Option V :=
  tr.foldl (fun acc e =>
    match e with
    | .cellWrite j x => if j = i then x else acc
    | _ => acc) init

/-! Specification-side descriptions of a run.  These definitions do not
re-implement the program; they describe the expected map contents and
trace fragments, and the lemmas below prove that the embedded program
produces exactly them. -/

/-- A handle whose invocations never raise: any non-callback handle, and a
callback with both exception flags off. -/
def benign : PossibleRef → Bool
  | .callback _ _ thr cthr => !thr && !cthr
  | _ => true

/-- Number of cleanup tokens minted by one attach step on this handle. -/
def tokCount : PossibleRef → Nat
  | .callback _ ret _ _ => if ret then 1 else 0
  | _ => 0

/-- Number of cleanup tokens minted by attaching the whole list. -/
def numCleanups (refs : List PossibleRef) : Nat :=
  (refs.map tokCount).sum

/-- The value `assignRef` returns for this handle when the token counter
stands at `n`: a cleanup with token `n` for a cleanup-returning callback,
nothing otherwise. -/
def attachResult (r : PossibleRef) (n : Nat) : Option Cleanup :=
  match r with
  | .callback _ ret _ cthr => if ret then some ⟨n, cthr⟩ else none
  | _ => none

/-- Events produced by one attach step with value `v` on this handle. -/
def attachEventsOf (v : V) : PossibleRef → List (Event V)
  | .callback i _ _ _ => [.call i (some v)]
  | .cellRef i => [.cellWrite i (some v)]
  | .undef => []

/-- Events produced by attaching the whole list with value `v`, in
sequence order. -/
def attachEvents (refs : List PossibleRef) (v : V) : List (Event V) :=
  (refs.map (attachEventsOf v)).flatten

/-- The cleanup map after attaching `refs` over an initial map `m`, the
token counter starting at `n`: each handle is `set` in order with its
`assignRef` result. -/
def attachMapFrom (m : CleanupMap) (refs : List PossibleRef) (n : Nat) : CleanupMap :=
  match refs with
  | [] => m
  | r :: rest => attachMapFrom (mapSet m r (attachResult r n)) rest (n + tokCount r)

/-- The association pairs freshly appended by attaching `refs` with the
token counter starting at `n` (the whole map, when the initial map is
empty and the handles are pairwise distinct). -/
def attachPairs (refs : List PossibleRef) (n : Nat) : CleanupMap :=
  match refs with
  | [] => []
  | r :: rest => (r, attachResult r n) :: attachPairs rest (n + tokCount r)

/-- Events produced by the detach fallback `assignRef(ref, null)` on this
handle. -/
def fallbackEventsOf : PossibleRef → List (Event V)
  | .callback i _ _ _ => [.call i none]
  | .cellRef i => [.cellWrite i none]
  | .undef => []

/-- Events produced by one detach step on this handle under map `m`: run
the stored cleanup if one is present and truthy, otherwise fall back. -/
def detachStepEvents (m : CleanupMap) (r : PossibleRef) : List (Event V)  :=
  match mapGet m r with
  | some (some c) => [.cleanupRun c.token]
  | _ => fallbackEventsOf r

/-- Events produced by the whole detach loop under map `m`, in sequence
order. -/
def detachEvents (refs : List PossibleRef) (m : CleanupMap) : List (Event V) :=
  (refs.map (detachStepEvents (V := V) m)).flatten

/-- Tokens minted by one detach step on this handle under map `m` (the
fallback invokes the callback, whose returned cleanup is discarded). -/
def detachFresh (m : CleanupMap) (r : PossibleRef) : Nat :=
  match mapGet m r with
  | some (some _) => 0
  | _ => tokCount r

/-- The keys of a cleanup map, with multiplicity. -/
def keysOf (m : CleanupMap) : List PossibleRef :=
  m.map Prod.fst

/-- Number of entries of the map carrying the given key. -/
def countKey (m : CleanupMap) (k : PossibleRef) : Nat :=
  (keysOf m).count k

/-- A callback handle on channel `i` that returns a cleanup function and
never raises. -/
def mkRet (i : Nat) : PossibleRef :=
  .callback i true false false

/-- A callback handle on channel `i` that returns nothing and never
raises. -/
def mkNoRet (i : Nat) : PossibleRef :=
  .callback i false false false

/-- Shift the token of an event by `n` (identity on token-free events). -/
def shiftTok (n : Nat) : Event V → Event V
  | .cleanupRun t => .cleanupRun (n + t)
  | e => e

/-- Shift every token of a trace by `n`. -/
def shiftTokens (n : Nat) (tr : List (Event V)) : List (Event V) :=
  tr.map (shiftTok n)

/-- Shift the token of a cleanup value by `n`. -/
def shiftCl (n : Nat) (c : Cleanup) : Cleanup :=
  ⟨n + c.token, c.cthr⟩

/-- Shift every token stored in a cleanup map by `n`. -/
def shiftMap (n : Nat) (m : CleanupMap) : CleanupMap :=
  m.map (fun p => (p.1, p.2.map (shiftCl n)))

/-- Whether a handle is the absent handle. -/
def isUndef : PossibleRef → Bool
  | .undef => true
  | _ => false

/-- The handle list with every absent handle removed. -/
def dropUndef (refs : List PossibleRef) : List PossibleRef :=
  refs.filter (fun r => !(isUndef r))

/-! Computation rules for `assignRef`, one per handle shape. -/

theorem assignRef_undef (value : Option V) (w : World V) :
    assignRef .undef value w = .ok (w, none) := rfl

theorem assignRef_cell (i : Nat) (value : Option V) (tr : List (Event V)) (n : Nat) :
    assignRef (.cellRef i) value ⟨tr, n⟩ = .ok (⟨tr ++ [.cellWrite i value], n⟩, none) := rfl

theorem assignRef_callback_ret (i : Nat) (cthr : Bool) (value : Option V)
    (tr : List (Event V)) (n : Nat) :
    assignRef (.callback i true false cthr) value ⟨tr, n⟩ =
      .ok (⟨tr ++ [.call i value], n + 1⟩, some ⟨n, cthr⟩) := rfl

theorem assignRef_callback_noret (i : Nat) (cthr : Bool) (value : Option V)
    (tr : List (Event V)) (n : Nat) :
    assignRef (.callback i false false cthr) value ⟨tr, n⟩ =
      .ok (⟨tr ++ [.call i value], n⟩, none) := rfl

theorem assignRef_callback_throw (i : Nat) (ret cthr : Bool) (value : Option V)
    (tr : List (Event V)) (n : Nat) :
    assignRef (.callback i ret true cthr) value ⟨tr, n⟩ =
      .error ⟨tr ++ [.call i value], n⟩ := rfl

/-! Lemmas about the map primitives. -/

theorem keysOf_cons (k : PossibleRef) (v : Option Cleanup) (m : CleanupMap) :
    keysOf ((k, v) :: m) = k :: keysOf m := rfl

theorem keysOf_append (m₁ m₂ : CleanupMap) :
    keysOf (m₁ ++ m₂) = keysOf m₁ ++ keysOf m₂ := by
  simp [keysOf]

theorem mapGet_mapSet_self (m : CleanupMap) (k : PossibleRef) (v : Option Cleanup) :
    mapGet (mapSet m k v) k = some v := by
  induction m with
  | nil => simp [mapSet, mapGet]
  | cons p rest ih =>
    obtain ⟨k₁, v₁⟩ := p
    by_cases h : k₁ = k
    · simp [mapSet, mapGet, h]
    · simp [mapSet, mapGet, h, ih]

theorem mapGet_mapSet_ne (m : CleanupMap) {k k₂ : PossibleRef} (v : Option Cleanup)
    (h : k ≠ k₂) : mapGet (mapSet m k v) k₂ = mapGet m k₂ := by
  induction m with
  | nil => simp [mapSet, mapGet, h]
  | cons p rest ih =>
    obtain ⟨k₁, v₁⟩ := p
    by_cases h₁ : k₁ = k
    · subst h₁
      simp [mapSet, mapGet, h]
    · simp [mapSet, mapGet, h₁, ih]

theorem mapSet_of_not_mem_keys (m : CleanupMap) (k : PossibleRef) (v : Option Cleanup)
    (h : k ∉ keysOf m) : mapSet m k v = m ++ [(k, v)] := by
  induction m with
  | nil => simp [mapSet]
  | cons p rest ih =>
    obtain ⟨k₁, v₁⟩ := p
    have hne : k₁ ≠ k := by
      intro he
      exact h (by simp [keysOf, he])
    have hrest : k ∉ keysOf rest := by
      intro he
      exact h (by simp [keysOf] at he ⊢; exact Or.inr he)
    simp [mapSet, hne, ih hrest]

theorem keysOf_mapSet (m : CleanupMap) (k : PossibleRef) (v : Option Cleanup) :
    keysOf (mapSet m k v) = if k ∈ keysOf m then keysOf m else keysOf m ++ [k] := by
  induction m with
  | nil => simp [mapSet, keysOf]
  | cons p rest ih =>
    obtain ⟨k₁, v₁⟩ := p
    by_cases h : k₁ = k
    · subst h
      simp [mapSet, keysOf_cons]
    · have hne : ¬(k = k₁) := fun he => h he.symm
      by_cases hmem : k ∈ keysOf rest
      · rw [mapSet, if_neg h, keysOf_cons, keysOf_cons, ih, if_pos hmem,
          if_pos (by simp [List.mem_cons, hmem])]
      · rw [mapSet, if_neg h, keysOf_cons, keysOf_cons, ih, if_neg hmem,
          if_neg (by simp [List.mem_cons, hne, hmem]), List.cons_append]

/-! Lemmas about the map produced by the attach loop. -/

theorem mem_keysOf_attachMapFrom_of_mem (refs : List PossibleRef) :
    ∀ (m : CleanupMap) (n : Nat) {k : PossibleRef}, k ∈ keysOf m →
      k ∈ keysOf (attachMapFrom m refs n) := by
  induction refs with
  | nil =>
    intro m n k h
    simpa [attachMapFrom] using h
  | cons r rest ih =>
    intro m n k h
    rw [attachMapFrom]
    refine ih _ _ ?_
    rw [keysOf_mapSet]
    by_cases hr : r ∈ keysOf m <;> simp [hr, h]

theorem mem_keysOf_attachMapFrom (refs : List PossibleRef) :
    ∀ (m : CleanupMap) (n : Nat) {k : PossibleRef}, k ∈ refs →
      k ∈ keysOf (attachMapFrom m refs n) := by
  induction refs with
  | nil =>
    intro m n k h
    cases h
  | cons r rest ih =>
    intro m n k h
    rw [attachMapFrom]
    rcases List.mem_cons.mp h with h | h
    · subst h
      refine mem_keysOf_attachMapFrom_of_mem _ _ _ ?_
      rw [keysOf_mapSet]
      by_cases hr : k ∈ keysOf m <;> simp [hr]
    · exact ih _ _ h

theorem keysOf_attachMapFrom_subset (refs : List PossibleRef) :
    ∀ (m : CleanupMap) (n : Nat) {k : PossibleRef},
      k ∈ keysOf (attachMapFrom m refs n) → k ∈ keysOf m ∨ k ∈ refs := by
  induction refs with
  | nil =>
    intro m n k h
    exact Or.inl (by simpa [attachMapFrom] using h)
  | cons r rest ih =>
    intro m n k h
    rw [attachMapFrom] at h
    rcases ih _ _ h with h₁ | h₁
    · rw [keysOf_mapSet] at h₁
      by_cases hr : r ∈ keysOf m
      · simp [hr] at h₁
        exact Or.inl h₁
      · simp [hr] at h₁
        rcases h₁ with h₁ | h₁
        · exact Or.inl h₁
        · exact Or.inr (by simp [h₁])
    · exact Or.inr (by simp [h₁])

theorem countKey_mapSet_le_one (m : CleanupMap) (k x : PossibleRef) (v : Option Cleanup)
    (h : countKey m x ≤ 1) : countKey (mapSet m k v) x ≤ 1 := by
  unfold countKey at h ⊢
  rw [keysOf_mapSet]
  by_cases hk : k ∈ keysOf m
  · simpa [hk] using h
  · simp only [hk, if_false, List.count_append]
    by_cases hx : x = k
    · subst hx
      have : (keysOf m).count x = 0 := List.count_eq_zero.mpr hk
      simp [this]
    · simp [List.count_singleton, hx]
      omega

theorem countKey_attachMapFrom_le_one (refs : List PossibleRef) :
    ∀ (m : CleanupMap) (n : Nat), (∀ x, countKey m x ≤ 1) →
      ∀ x, countKey (attachMapFrom m refs n) x ≤ 1 := by
  induction refs with
  | nil =>
    intro m n h
    simpa [attachMapFrom] using h
  | cons r rest ih =>
    intro m n h
    rw [attachMapFrom]
    exact ih _ _ (fun x => countKey_mapSet_le_one _ _ _ _ (h x))

theorem mapGet_attachMapFrom_not_mem (refs : List PossibleRef) :
    ∀ (m : CleanupMap) (n : Nat) {k : PossibleRef}, k ∉ refs →
      mapGet (attachMapFrom m refs n) k = mapGet m k := by
  induction refs with
  | nil =>
    intro m n k h
    rfl
  | cons r rest ih =>
    intro m n k h
    have hk : r ≠ k := fun he => h (by simp [he])
    have hrest : k ∉ rest := fun he => h (by simp [he])
    rw [attachMapFrom, ih _ _ hrest, mapGet_mapSet_ne _ _ hk]

theorem mapGet_attachMapFrom_mem (refs : List PossibleRef) :
    ∀ (m : CleanupMap) (n : Nat) {r : PossibleRef}, r ∈ refs →
      ∃ j, mapGet (attachMapFrom m refs n) r = some (attachResult r j) := by
  induction refs with
  | nil =>
    intro m n r h
    cases h
  | cons r₁ rest ih =>
    intro m n r h
    rw [attachMapFrom]
    by_cases hr : r ∈ rest
    · exact ih _ _ hr
    · have he : r = r₁ := by
        rcases List.mem_cons.mp h with h | h
        · exact h
        · exact absurd h hr
      subst he
      refine ⟨n, ?_⟩
      rw [mapGet_attachMapFrom_not_mem _ _ _ hr, mapGet_mapSet_self]

theorem attachMapFrom_of_fresh (refs : List PossibleRef) (hnd : refs.Nodup) :
    ∀ (m : CleanupMap) (n : Nat), (∀ r ∈ refs, r ∉ keysOf m) →
      attachMapFrom m refs n = m ++ attachPairs refs n := by
  induction refs with
  | nil =>
    intro m n hdisj
    simp [attachMapFrom, attachPairs]
  | cons r rest ih =>
    intro m n hdisj
    have hr : r ∉ keysOf m := hdisj r (by simp)
    have hnd₁ : rest.Nodup := (List.nodup_cons.mp hnd).2
    have hrr : r ∉ rest := (List.nodup_cons.mp hnd).1
    have hdisj₁ : ∀ x ∈ rest, x ∉ keysOf (m ++ [(r, attachResult r n)]) := by
      intro x hx hmem
      rw [keysOf_append] at hmem
      rcases List.mem_append.mp hmem with h | h
      · exact hdisj x (by simp [hx]) h
      · simp [keysOf] at h
        exact hrr (h ▸ hx)
    rw [attachMapFrom, mapSet_of_not_mem_keys _ _ _ hr, ih hnd₁ _ _ hdisj₁,
      attachPairs, List.append_assoc]
    rfl

theorem mapGet_attachPairs_get (refs : List PossibleRef) (hnd : refs.Nodup) :
    ∀ (n : Nat) (j : Nat) (hj : j < refs.length),
      mapGet (attachPairs refs n) (refs.get ⟨j, hj⟩) =
        some (attachResult (refs.get ⟨j, hj⟩) (n + numCleanups (refs.take j))) := by
  induction refs with
  | nil =>
    intro n j hj
    cases hj
  | cons r rest ih =>
    intro n j hj
    cases j with
    | zero => simp [attachPairs, mapGet, numCleanups]
    | succ j =>
      have hrr : r ∉ rest := (List.nodup_cons.mp hnd).1
      have hj₁ : j < rest.length := by simpa using hj
      have hne : r ≠ rest.get ⟨j, hj₁⟩ := fun he => hrr (he ▸ List.get_mem rest j hj₁)
      have hstep := ih (List.nodup_cons.mp hnd).2 (n + tokCount r) j hj₁
      simp only [attachPairs, mapGet, List.get_cons_succ, hne, if_false]
      rw [hstep]
      simp [numCleanups, Nat.add_assoc]

/-! Characterization of the attach branch for non-raising handles. -/

theorem attachAll_append (xs ys : List PossibleRef) (v : V) (m : CleanupMap)
    (tr : List (Event V)) (n : Nat) (hb : ∀ r ∈ xs, benign r = true) :
    attachAll (xs ++ ys) v m ⟨tr, n⟩ =
      attachAll ys v (attachMapFrom m xs n) ⟨tr ++ attachEvents xs v, n + numCleanups xs⟩ := by
  induction xs generalizing m tr n with
  | nil => simp [attachMapFrom, attachEvents, numCleanups]
  | cons r rest ih =>
    have hbr := hb r (by simp)
    have hbrest : ∀ x ∈ rest, benign x = true := fun x hx => hb x (by simp [hx])
    cases r with
    | undef =>
      simp only [List.cons_append, List.append_eq, attachAll, assignRef_undef]
      rw [ih _ _ _ hbrest]
      simp [attachMapFrom, attachResult, attachEvents, attachEventsOf, numCleanups, tokCount]
    | callback i ret thr cthr =>
      simp only [benign, Bool.and_eq_true, Bool.not_eq_true'] at hbr
      obtain ⟨h₁, h₂⟩ := hbr
      subst h₁; subst h₂
      cases ret with
      | true =>
        simp only [List.cons_append, List.append_eq, attachAll, assignRef_callback_ret]
        rw [ih _ _ _ hbrest]
        simp [attachMapFrom, attachResult, attachEvents, attachEventsOf, numCleanups,
          tokCount, List.append_assoc, Nat.add_assoc]
      | false =>
        simp only [List.cons_append, List.append_eq, attachAll, assignRef_callback_noret]
        rw [ih _ _ _ hbrest]
        simp [attachMapFrom, attachResult, attachEvents, attachEventsOf, numCleanups,
          tokCount, List.append_assoc]
    | cellRef i =>
      simp only [List.cons_append, List.append_eq, attachAll, assignRef_cell]
      rw [ih _ _ _ hbrest]
      simp [attachMapFrom, attachResult, attachEvents, attachEventsOf, numCleanups,
        tokCount, List.append_assoc]

theorem attachAll_ok (refs : List PossibleRef) (v : V) (m : CleanupMap)
    (tr : List (Event V)) (n : Nat) (hb : ∀ r ∈ refs, benign r = true) :
    attachAll refs v m ⟨tr, n⟩ =
      .ok (attachMapFrom m refs n, ⟨tr ++ attachEvents refs v, n + numCleanups refs⟩) := by
  have h := attachAll_append refs [] v m tr n hb
  simpa [attachAll] using h

/-! Characterization of the detach loop for non-raising handles and maps
whose stored cleanups do not raise. -/

theorem detachLoop_append (xs ys : List PossibleRef) (m : CleanupMap) :
    ∀ (tr : List (Event V)) (n : Nat),
      (∀ r ∈ xs, benign r = true) →
      (∀ r ∈ xs, ∀ c : Cleanup, mapGet m r = some (some c) → c.cthr = false) →
      detachLoop (xs ++ ys) m ⟨tr, n⟩ =
        detachLoop ys m ⟨tr ++ detachEvents xs m, n + (xs.map (detachFresh m)).sum⟩ := by
  induction xs with
  | nil =>
    intro tr n hb hm
    simp [detachEvents]
  | cons r rest ih =>
    intro tr n hb hm
    have hbr := hb r (by simp)
    have hbrest : ∀ x ∈ rest, benign x = true := fun x hx => hb x (by simp [hx])
    have hmrest : ∀ x ∈ rest, ∀ c : Cleanup, mapGet m x = some (some c) → c.cthr = false :=
      fun x hx => hm x (by simp [hx])
    cases hg : mapGet m r with
    | some oc =>
      cases oc with
      | some c =>
        have hc : c.cthr = false := hm r (by simp) c hg
        obtain ⟨t, ct⟩ := c
        subst hc
        simp only [List.cons_append, List.append_eq, detachLoop, hg, push]
        rw [ih _ _ hbrest hmrest]
        simp [detachEvents, detachStepEvents, detachFresh, hg, List.append_assoc]
      | none =>
        simp only [List.cons_append, List.append_eq, detachLoop, hg]
        cases r with
        | undef =>
          simp only [assignRef_undef]
          rw [ih _ _ hbrest hmrest]
          simp [detachEvents, detachStepEvents, detachFresh, fallbackEventsOf, hg, tokCount]
        | callback i ret thr cthr =>
          simp only [benign, Bool.and_eq_true, Bool.not_eq_true'] at hbr
          obtain ⟨h₁, h₂⟩ := hbr
          subst h₁; subst h₂
          cases ret with
          | true =>
            simp only [assignRef_callback_ret]
            rw [ih _ _ hbrest hmrest]
            simp [detachEvents, detachStepEvents, detachFresh, fallbackEventsOf, hg,
              tokCount, List.append_assoc, Nat.add_assoc]
          | false =>
            simp only [assignRef_callback_noret]
            rw [ih _ _ hbrest hmrest]
            simp [detachEvents, detachStepEvents, detachFresh, fallbackEventsOf, hg,
              tokCount, List.append_assoc]
        | cellRef i =>
          simp only [assignRef_cell]
          rw [ih _ _ hbrest hmrest]
          simp [detachEvents, detachStepEvents, detachFresh, fallbackEventsOf, hg,
            tokCount, List.append_assoc]
    | none =>
      simp only [List.cons_append, List.append_eq, detachLoop, hg]
      cases r with
      | undef =>
        simp only [assignRef_undef]
        rw [ih _ _ hbrest hmrest]
        simp [detachEvents, detachStepEvents, detachFresh, fallbackEventsOf, hg, tokCount]
      | callback i ret thr cthr =>
        simp only [benign, Bool.and_eq_true, Bool.not_eq_true'] at hbr
        obtain ⟨h₁, h₂⟩ := hbr
        subst h₁; subst h₂
        cases ret with
        | true =>
          simp only [assignRef_callback_ret]
          rw [ih _ _ hbrest hmrest]
          simp [detachEvents, detachStepEvents, detachFresh, fallbackEventsOf, hg,
            tokCount, List.append_assoc, Nat.add_assoc]
        | false =>
          simp only [assignRef_callback_noret]
          rw [ih _ _ hbrest hmrest]
          simp [detachEvents, detachStepEvents, detachFresh, fallbackEventsOf, hg,
            tokCount, List.append_assoc]
      | cellRef i =>
        simp only [assignRef_cell]
        rw [ih _ _ hbrest hmrest]
        simp [detachEvents, detachStepEvents, detachFresh, fallbackEventsOf, hg,
          tokCount, List.append_assoc]

theorem detachLoop_ok (refs : List PossibleRef) (m : CleanupMap)
    (tr : List (Event V)) (n : Nat)
    (hb : ∀ r ∈ refs, benign r = true)
    (hm : ∀ r ∈ refs, ∀ c : Cleanup, mapGet m r = some (some c) → c.cthr = false) :
    detachLoop refs m ⟨tr, n⟩ =
      .ok ⟨tr ++ detachEvents refs m, n + (refs.map (detachFresh m)).sum⟩ := by
  have h := detachLoop_append refs [] m tr n hb hm
  simpa [detachLoop] using h

/-! Run equations for the two branches of the combined handle. -/

theorem mergeRefs_attach (refs : List PossibleRef) (v : V) (m : CleanupMap)
    (tr : List (Event V)) (n : Nat) (hb : ∀ r ∈ refs, benign r = true) :
    mergeRefs refs (some v) m ⟨tr, n⟩ =
      .ok (attachMapFrom m refs n, ⟨tr ++ attachEvents refs v, n + numCleanups refs⟩) :=
  attachAll_ok refs v m tr n hb

theorem mergeRefs_detach (refs : List PossibleRef) (m : CleanupMap)
    (tr : List (Event V)) (n : Nat)
    (hb : ∀ r ∈ refs, benign r = true)
    (hm : ∀ r ∈ refs, ∀ c : Cleanup, mapGet m r = some (some c) → c.cthr = false) :
    mergeRefs refs none m ⟨tr, n⟩ =
      .ok ([], ⟨tr ++ detachEvents refs m, n + (refs.map (detachFresh m)).sum⟩) := by
  simp only [mergeRefs]
  rw [detachLoop_ok refs m tr n hb hm]

/-! The cleanup values stored by a benign attach never raise. -/

theorem attachResult_cthr_false {r : PossibleRef} (hb : benign r = true) {j : Nat}
    {c : Cleanup} (h : attachResult r j = some c) : c.cthr = false := by
  cases r with
  | undef => simp [attachResult] at h
  | cellRef i => simp [attachResult] at h
  | callback i ret thr cthr =>
    simp only [benign, Bool.and_eq_true, Bool.not_eq_true'] at hb
    cases ret with
    | true =>
      have h₀ : attachResult (PossibleRef.callback i true thr cthr) j = some ⟨j, cthr⟩ := rfl
      rw [h₀] at h
      injection h with h₂
      rw [← h₂]
      exact hb.2
    | false => simp [attachResult] at h

theorem mapGet_mapSet_cases (m : CleanupMap) (k k₂ : PossibleRef) (v : Option Cleanup) :
    mapGet (mapSet m k v) k₂ = mapGet m k₂ ∨ mapGet (mapSet m k v) k₂ = some v := by
  by_cases h : k = k₂
  · subst h
    exact Or.inr (mapGet_mapSet_self m k v)
  · exact Or.inl (mapGet_mapSet_ne m v h)

theorem mapGet_attachMapFrom_cases (refs : List PossibleRef) :
    ∀ (m : CleanupMap) (n : Nat) (k : PossibleRef),
      mapGet (attachMapFrom m refs n) k = mapGet m k ∨
      ∃ r ∈ refs, ∃ j, mapGet (attachMapFrom m refs n) k = some (attachResult r j) := by
  induction refs with
  | nil =>
    intro m n k
    exact Or.inl rfl
  | cons r rest ih =>
    intro m n k
    rw [attachMapFrom]
    rcases ih (mapSet m r (attachResult r n)) (n + tokCount r) k with h | ⟨r₁, hr₁, j, hj⟩
    · rcases mapGet_mapSet_cases m r k (attachResult r n) with h₂ | h₂
      · exact Or.inl (by rw [h, h₂])
      · exact Or.inr ⟨r, by simp, n, by rw [h, h₂]⟩
    · exact Or.inr ⟨r₁, by simp [hr₁], j, hj⟩

theorem attachMap_cthr_false (refs : List PossibleRef) (m : CleanupMap) (n : Nat)
    (hb : ∀ r ∈ refs, benign r = true)
    (hm : ∀ (r : PossibleRef) (c : Cleanup), mapGet m r = some (some c) → c.cthr = false) :
    ∀ (r : PossibleRef) (c : Cleanup),
      mapGet (attachMapFrom m refs n) r = some (some c) → c.cthr = false := by
  intro r c h
  rcases mapGet_attachMapFrom_cases refs m n r with h₁ | ⟨r₁, hr₁, j, hj⟩
  · exact hm r c (h₁ ▸ h)
  · rw [hj] at h
    exact attachResult_cthr_false (hb r₁ hr₁) (Option.some.injEq .. ▸ h)

/-! After a benign attach, the detach loop never mints new tokens: every
handle of the list has a registry entry, and handles whose entry is the
explicit marker have `tokCount` zero. -/

theorem detachFresh_attachMap_zero (refs : List PossibleRef) (n : Nat)
    {r : PossibleRef} (h : r ∈ refs) :
    detachFresh (attachMapFrom [] refs n) r = 0 := by
  obtain ⟨j, hj⟩ := mapGet_attachMapFrom_mem refs [] n h
  cases r with
  | undef => simp [detachFresh, hj, attachResult, tokCount]
  | cellRef i => simp [detachFresh, hj, attachResult, tokCount]
  | callback i ret thr cthr =>
    cases ret with
    | true => simp [detachFresh, hj, attachResult]
    | false => simp [detachFresh, hj, attachResult, tokCount]

theorem detachFresh_attachMap_sum_zero (refs : List PossibleRef) (n : Nat) :
    (refs.map (detachFresh (attachMapFrom [] refs n))).sum = 0 := by
  refine List.sum_eq_zero ?_
  intro x hx
  rw [List.mem_map] at hx
  obtain ⟨r, hr, hxr⟩ := hx
  rw [← hxr]
  exact detachFresh_attachMap_zero refs n hr

/-! Unfolding rules for the event-list descriptions. -/

theorem attachEvents_cons (r : PossibleRef) (rest : List PossibleRef) (v : V) :
    attachEvents (r :: rest) v = attachEventsOf v r ++ attachEvents rest v := by
  simp [attachEvents]

theorem detachEvents_cons (m : CleanupMap) (r : PossibleRef) (rest : List PossibleRef) :
    detachEvents (V := V) (r :: rest) m = detachStepEvents m r ++ detachEvents rest m := by
  simp [detachEvents]

theorem shiftTokens_append (n : Nat) (a b : List (Event V)) :
    shiftTokens n (a ++ b) = shiftTokens n a ++ shiftTokens n b :=
  List.map_append _ a b

/-! Shifting the token counter base shifts every minted token uniformly
and changes nothing else: the registry contents and the detach events of
a cycle started at base `n` are those of a cycle started at base `0`
with all tokens moved up by `n`. -/

theorem shiftMap_cons (n : Nat) (k : PossibleRef) (v : Option Cleanup) (m : CleanupMap) :
    shiftMap n ((k, v) :: m) = (k, v.map (shiftCl n)) :: shiftMap n m := rfl

theorem mapGet_shiftMap (n : Nat) (m : CleanupMap) (k : PossibleRef) :
    mapGet (shiftMap n m) k = (mapGet m k).map (Option.map (shiftCl n)) := by
  induction m with
  | nil => rfl
  | cons p rest ih =>
    obtain ⟨k₁, v₁⟩ := p
    rw [shiftMap_cons]
    by_cases h : k₁ = k
    · simp [mapGet, h]
    · simp only [mapGet, h, if_false, ih]

theorem mapSet_shiftMap (n : Nat) (m : CleanupMap) (k : PossibleRef) (v : Option Cleanup) :
    mapSet (shiftMap n m) k (v.map (shiftCl n)) = shiftMap n (mapSet m k v) := by
  induction m with
  | nil => rfl
  | cons p rest ih =>
    obtain ⟨k₁, v₁⟩ := p
    rw [shiftMap_cons]
    by_cases h : k₁ = k
    · subst h
      simp [mapSet, shiftMap_cons]
    · simp only [mapSet, h, if_false, ih, shiftMap_cons]

theorem attachResult_shift (n j : Nat) (r : PossibleRef) :
    attachResult r (n + j) = (attachResult r j).map (shiftCl n) := by
  cases r with
  | undef => rfl
  | cellRef i => rfl
  | callback i ret thr cthr => cases ret <;> simp [attachResult, shiftCl]

theorem attachMapFrom_shift (refs : List PossibleRef) :
    ∀ (m : CleanupMap) (n j : Nat),
      attachMapFrom (shiftMap n m) refs (n + j) = shiftMap n (attachMapFrom m refs j) := by
  induction refs with
  | nil =>
    intro m n j
    rfl
  | cons r rest ih =>
    intro m n j
    rw [attachMapFrom, attachMapFrom, attachResult_shift, mapSet_shiftMap,
      Nat.add_assoc, ih]

theorem attachMapFrom_nil_shift (refs : List PossibleRef) (n : Nat) :
    attachMapFrom [] refs n = shiftMap n (attachMapFrom [] refs 0) := by
  have h := attachMapFrom_shift refs [] n 0
  simpa [shiftMap] using h

theorem shiftTokens_fallback (n : Nat) (r : PossibleRef) :
    shiftTokens (V := V) n (fallbackEventsOf r) = fallbackEventsOf r := by
  cases r <;> rfl

theorem detachStepEvents_shiftMap (n : Nat) (m : CleanupMap) (r : PossibleRef) :
    detachStepEvents (V := V) (shiftMap n m) r = shiftTokens n (detachStepEvents m r) := by
  simp only [detachStepEvents, mapGet_shiftMap]
  cases hg : mapGet m r with
  | none => simp [shiftTokens_fallback]
  | some oc =>
    cases oc with
    | none => simp [shiftTokens_fallback]
    | some c => simp [shiftTokens, shiftTok, shiftCl]

theorem detachEvents_shiftMap (n : Nat) (refs : List PossibleRef) (m : CleanupMap) :
    detachEvents (V := V) refs (shiftMap n m) = shiftTokens n (detachEvents refs m) := by
  induction refs with
  | nil => rfl
  | cons r rest ih =>
    rw [detachEvents_cons, detachEvents_cons, shiftTokens_append,
      detachStepEvents_shiftMap, ih]

theorem shiftTokens_attachEvents (n : Nat) (refs : List PossibleRef) (v : V) :
    shiftTokens n (attachEvents refs v) = attachEvents refs v := by
  induction refs with
  | nil => rfl
  | cons r rest ih =>
    have hr : shiftTokens (V := V) n (attachEventsOf v r) = attachEventsOf v r := by
      cases r <;> rfl
    rw [attachEvents_cons, shiftTokens_append, hr, ih]

/-! One full attach/detach cycle of the combined handle, from an empty
registry, for non-raising handles: the attach stores one registry entry
per handle and emits the attach events; the detach empties the registry,
emits the detach events, and mints no tokens.  The whole trace increment
is that of a base-0 cycle with every token shifted by the starting
counter, so consecutive cycles of one instance behave identically up to
the (unobservable) token numbering. -/

theorem cycle_eq (refs : List PossibleRef) (v : V) (tr : List (Event V)) (n : Nat)
    (hb : ∀ r ∈ refs, benign r = true) :
    mergeRefs refs (some v) [] ⟨tr, n⟩ =
      .ok (attachMapFrom [] refs n,
        ⟨tr ++ attachEvents refs v, n + numCleanups refs⟩) ∧
    mergeRefs refs none (attachMapFrom [] refs n)
        ⟨tr ++ attachEvents refs v, n + numCleanups refs⟩ =
      .ok ([], ⟨tr ++ shiftTokens n
          (attachEvents refs v ++ detachEvents refs (attachMapFrom [] refs 0)),
        n + numCleanups refs⟩) := by
  constructor
  · exact mergeRefs_attach refs v [] tr n hb
  · have hm : ∀ (r : PossibleRef) (c : Cleanup),
        mapGet (attachMapFrom [] refs n) r = some (some c) → c.cthr = false := by
      refine attachMap_cthr_false refs [] n hb ?_
      intro r c h
      cases h
    rw [mergeRefs_detach refs _ _ _ hb (fun r _ => hm r)]
    rw [detachFresh_attachMap_sum_zero refs n]
    rw [shiftTokens_append, shiftTokens_attachEvents]
    rw [attachMapFrom_nil_shift refs n, detachEvents_shiftMap]
    simp [List.append_assoc]

/-! Claim theorems. -/

/-- C1: for two distinct callback handles where handle A (channel `a`)
returns a cleanup action and handle B (channel `b`) does not, invoking the
combined handle with a non-null value `v` calls A with `v` once and B with
`v` once, and the cleanup captured for A is the token-0 action; invoking
it subsequently with null runs that captured cleanup exactly once, calls B
with null exactly once, and never calls A with null. -/
theorem claim_C1 {V : Type} [DecidableEq V] (a b : Nat) (v : V) (hab : a ≠ b) :
    ∃ (m₁ : CleanupMap) (w₁ w₂ : World V),
      mergeRefs [.callback a true false false, .callback b false false false]
          (some v) [] ⟨[], 0⟩ = .ok (m₁, w₁) ∧
      mapGet m₁ (.callback a true false false) = some (some ⟨0, false⟩) ∧
      w₁.trace.count (.call a (some v)) = 1 ∧
      w₁.trace.count (.call b (some v)) = 1 ∧
      w₁.trace.count (.cleanupRun 0) = 0 ∧
      mergeRefs [.callback a true false false, .callback b false false false]
          none m₁ w₁ = .ok ([], w₂) ∧
      w₂.trace.count (.cleanupRun 0) = 1 ∧
      w₂.trace.count (.call b none) = 1 ∧
      w₂.trace.count (.call a none) = 0 := by
  have hAB : PossibleRef.callback a true false false ≠
      PossibleRef.callback b false false false := by
    intro h
    injection h with h₁ h₂ h₃ h₄
    exact hab h₁
  have hb : ∀ r ∈ [PossibleRef.callback a true false false,
      PossibleRef.callback b false false false], benign r = true := by
    intro r hr
    rcases List.mem_cons.mp hr with h | h
    · subst h
      rfl
    · rcases List.mem_cons.mp h with h | h
      · subst h
        rfl
      · cases h
  have hmap : attachMapFrom [] [PossibleRef.callback a true false false,
      PossibleRef.callback b false false false] 0 =
      [(PossibleRef.callback a true false false, some ⟨0, false⟩),
       (PossibleRef.callback b false false false, none)] := by
    simp [attachMapFrom, mapSet, attachResult, tokCount, hAB]
  have hag : attachEvents [PossibleRef.callback a true false false,
      PossibleRef.callback b false false false] v =
      [Event.call a (some v), Event.call b (some v)] := by
    simp [attachEvents, attachEventsOf]
  have hnc : numCleanups [PossibleRef.callback a true false false,
      PossibleRef.callback b false false false] = 1 := by
    simp [numCleanups, tokCount]
  have hm : ∀ r ∈ [PossibleRef.callback a true false false,
      PossibleRef.callback b false false false], ∀ c : Cleanup,
      mapGet (attachMapFrom [] [PossibleRef.callback a true false false,
        PossibleRef.callback b false false false] 0) r = some (some c) →
      c.cthr = false := by
    intro r _ c hc
    refine attachMap_cthr_false _ [] 0 hb ?_ r c hc
    intro r₁ c₁ h₁
    cases h₁
  have hatt := mergeRefs_attach [PossibleRef.callback a true false false,
    PossibleRef.callback b false false false] v [] [] 0 hb
  have hdet := mergeRefs_detach [PossibleRef.callback a true false false,
    PossibleRef.callback b false false false]
    (attachMapFrom [] [PossibleRef.callback a true false false,
      PossibleRef.callback b false false false] 0)
    ([] ++ attachEvents [PossibleRef.callback a true false false,
      PossibleRef.callback b false false false] v)
    (0 + numCleanups [PossibleRef.callback a true false false,
      PossibleRef.callback b false false false]) hb hm
  have hde : detachEvents (V := V) [PossibleRef.callback a true false false,
      PossibleRef.callback b false false false]
      (attachMapFrom [] [PossibleRef.callback a true false false,
        PossibleRef.callback b false false false] 0) =
      [Event.cleanupRun 0, Event.call b none] := by
    rw [hmap]
    simp [detachEvents, detachStepEvents, mapGet, fallbackEventsOf, hAB]
  have hdf : ([PossibleRef.callback a true false false,
      PossibleRef.callback b false false false].map
      (detachFresh (attachMapFrom [] [PossibleRef.callback a true false false,
        PossibleRef.callback b false false false] 0))).sum = 0 :=
    detachFresh_attachMap_sum_zero _ 0
  rw [hmap, hag, hnc] at hatt
  rw [hag, hnc, hde, hdf, hmap] at hdet
  refine ⟨[(PossibleRef.callback a true false false, some ⟨0, false⟩),
      (PossibleRef.callback b false false false, none)],
    ⟨[Event.call a (some v), Event.call b (some v)], 1⟩,
    ⟨[Event.call a (some v), Event.call b (some v), Event.cleanupRun 0, Event.call b none], 1⟩,
    ?_, ?_, ?_, ?_, ?_, ?_, ?_, ?_, ?_⟩
  · simpa using hatt
  · simp [mapGet]
  · simp [List.count_cons, hab]
  · have hba : ¬(b = a) := fun h => hab h.symm
    simp [List.count_cons, hba]
  · simp [List.count_cons]
  · simpa using hdet
  · simp [List.count_cons]
  · have hba : ¬(b = a) := fun h => hab h.symm
    simp [List.count_cons, hba]
  · simp [List.count_cons, hab]

/-- Witness for C1 at channels 0 and 1 and value 37. -/
theorem claim_C1_witness :
    ∃ (m₁ : CleanupMap) (w₁ w₂ : World Nat),
      mergeRefs [.callback 0 true false false, .callback 1 false false false]
          (some 37) [] ⟨[], 0⟩ = .ok (m₁, w₁) ∧
      mapGet m₁ (.callback 0 true false false) = some (some ⟨0, false⟩) ∧
      w₁.trace.count (.call 0 (some 37)) = 1 ∧
      w₁.trace.count (.call 1 (some 37)) = 1 ∧
      w₁.trace.count (.cleanupRun 0) = 0 ∧
      mergeRefs [.callback 0 true false false, .callback 1 false false false]
          none m₁ w₁ = .ok ([], w₂) ∧
      w₂.trace.count (.cleanupRun 0) = 1 ∧
      w₂.trace.count (.call 1 none) = 1 ∧
      w₂.trace.count (.call 0 none) = 0 :=
  claim_C1 0 1 37 (by decide)

/-! Support for lists made only of callback handles. -/

theorem numCleanups_cons (r : PossibleRef) (rest : List PossibleRef) :
    numCleanups (r :: rest) = tokCount r + numCleanups rest := by
  simp [numCleanups]

theorem numCleanups_mkNoRet (ids : List Nat) : numCleanups (ids.map mkNoRet) = 0 := by
  induction ids with
  | nil => rfl
  | cons i rest ih =>
    rw [List.map_cons, numCleanups_cons, ih]
    rfl

theorem numCleanups_mkRet (ids : List Nat) : numCleanups (ids.map mkRet) = ids.length := by
  induction ids with
  | nil => rfl
  | cons i rest ih =>
    rw [List.map_cons, numCleanups_cons, ih]
    simp [mkRet, tokCount]
    omega

theorem attachEvents_map_call (ids : List Nat) (v : V) (mk : Nat → PossibleRef)
    (hmk : ∀ i, ∃ ret thr cthr, mk i = .callback i ret thr cthr) :
    attachEvents (ids.map mk) v = ids.map (fun i => Event.call i (some v)) := by
  induction ids with
  | nil => rfl
  | cons i rest ih =>
    obtain ⟨ret, thr, cthr, hi⟩ := hmk i
    rw [List.map_cons, attachEvents_cons, ih, hi]
    rfl

theorem mapGet_attachMapFrom_none (refs : List PossibleRef) (m : CleanupMap) (n : Nat)
    {r : PossibleRef} (h : r ∈ refs) (hnone : ∀ j, attachResult r j = none) :
    mapGet (attachMapFrom m refs n) r = some none := by
  obtain ⟨j, hj⟩ := mapGet_attachMapFrom_mem refs m n h
  rw [hj, hnone j]

theorem detachEvents_fallback (refs : List PossibleRef) (m : CleanupMap)
    (h : ∀ r ∈ refs, ∀ c : Cleanup, mapGet m r ≠ some (some c)) :
    detachEvents (V := V) refs m = (refs.map (fallbackEventsOf (V := V))).flatten := by
  induction refs with
  | nil => rfl
  | cons r rest ih =>
    have hstep : detachStepEvents (V := V) m r = fallbackEventsOf r := by
      cases hg : mapGet m r with
      | none => simp [detachStepEvents, hg]
      | some oc =>
        cases oc with
        | none => simp [detachStepEvents, hg]
        | some c => exact absurd hg (h r (by simp) c)
    rw [detachEvents_cons, hstep, ih (fun x hx => h x (by simp [hx]))]
    simp

theorem fallback_mkNoRet (ids : List Nat) :
    ((ids.map mkNoRet).map (fallbackEventsOf (V := V))).flatten =
      ids.map (fun i => Event.call i none) := by
  induction ids with
  | nil => rfl
  | cons i rest ih =>
    rw [List.map_cons, List.map_cons, List.flatten_cons, ih, List.map_cons]
    rfl

theorem count_call_map_arg [DecidableEq V] (ids : List Nat) (x : Option V) (i : Nat) :
    (ids.map (fun j => Event.call j x)).count (.call i x) = ids.count i := by
  induction ids with
  | nil => rfl
  | cons j rest ih => simp [List.count_cons, ih, Event.call.injEq]

theorem count_call_map_of_ne_arg [DecidableEq V] (ids : List Nat) {x y : Option V} (i : Nat)
    (hxy : y ≠ x) : (ids.map (fun j => Event.call j x)).count (.call i y) = 0 := by
  refine List.count_eq_zero.mpr ?_
  intro hmem
  rw [List.mem_map] at hmem
  obtain ⟨j, _, hj⟩ := hmem
  injection hj with h₁ h₂
  exact hxy h₂.symm

theorem count_cleanupRun_map_call [DecidableEq V] (ids : List Nat) (x : Option V) (t : Nat) :
    (ids.map (fun j => Event.call j x)).count (.cleanupRun t) = 0 := by
  refine List.count_eq_zero.mpr ?_
  intro hmem
  rw [List.mem_map] at hmem
  obtain ⟨j, _, hj⟩ := hmem
  cases hj

/-- C3: for every list (any length, duplicates allowed) of callback
handles that do not return a cleanup action, invoking the combined handle
with a non-null value `v` invokes each handle occurrence exactly once with
`v` (the attach trace is exactly one `call` per occurrence, in order, and
per channel the count of calls with `v` equals the channel multiplicity),
and a subsequent invocation with null invokes each occurrence exactly once
with null. -/
theorem claim_C3 {V : Type} [DecidableEq V] (ids : List Nat) (v : V) :
    ∃ (m₁ : CleanupMap) (w₁ w₂ : World V),
      mergeRefs (ids.map mkNoRet) (some v) [] ⟨[], 0⟩ = .ok (m₁, w₁) ∧
      w₁.trace = ids.map (fun i => Event.call i (some v)) ∧
      (∀ i, w₁.trace.count (.call i (some v)) = ids.count i) ∧
      (∀ i, w₁.trace.count (.call i none) = 0) ∧
      mergeRefs (ids.map mkNoRet) none m₁ w₁ = .ok ([], w₂) ∧
      w₂.trace = ids.map (fun i => Event.call i (some v)) ++
        ids.map (fun i => Event.call i none) ∧
      (∀ i, w₂.trace.count (.call i none) = ids.count i) := by
  have hb : ∀ r ∈ ids.map mkNoRet, benign r = true := by
    intro r hr
    rw [List.mem_map] at hr
    obtain ⟨i, _, hi⟩ := hr
    rw [← hi]
    rfl
  have hnone : ∀ r ∈ ids.map mkNoRet, ∀ j, attachResult r j = none := by
    intro r hr j
    rw [List.mem_map] at hr
    obtain ⟨i, _, hi⟩ := hr
    rw [← hi]
    rfl
  have hgetnone : ∀ r ∈ ids.map mkNoRet,
      mapGet (attachMapFrom [] (ids.map mkNoRet) 0) r = some none := by
    intro r hr
    exact mapGet_attachMapFrom_none _ [] 0 hr (hnone r hr)
  have hm : ∀ r ∈ ids.map mkNoRet, ∀ c : Cleanup,
      mapGet (attachMapFrom [] (ids.map mkNoRet) 0) r = some (some c) → c.cthr = false := by
    intro r hr c hc
    rw [hgetnone r hr] at hc
    injection hc with h₁
    cases h₁
  have hnc := numCleanups_mkNoRet ids
  have hag : attachEvents (ids.map mkNoRet) v = ids.map (fun i => Event.call i (some v)) :=
    attachEvents_map_call ids v mkNoRet (fun i => ⟨false, false, false, rfl⟩)
  have hde : detachEvents (V := V) (ids.map mkNoRet) (attachMapFrom [] (ids.map mkNoRet) 0) =
      ids.map (fun i => Event.call i none) := by
    rw [detachEvents_fallback _ _ ?_, fallback_mkNoRet]
    intro r hr c hc
    rw [hgetnone r hr] at hc
    injection hc with h₁
    cases h₁
  have hatt := mergeRefs_attach (ids.map mkNoRet) v [] [] 0 hb
  have hdet := mergeRefs_detach (ids.map mkNoRet) (attachMapFrom [] (ids.map mkNoRet) 0)
    ([] ++ attachEvents (ids.map mkNoRet) v) (0 + numCleanups (ids.map mkNoRet)) hb hm
  rw [hag, hnc] at hatt
  rw [hag, hnc, hde, detachFresh_attachMap_sum_zero] at hdet
  refine ⟨attachMapFrom [] (ids.map mkNoRet) 0,
    ⟨ids.map (fun i => Event.call i (some v)), 0⟩,
    ⟨ids.map (fun i => Event.call i (some v)) ++ ids.map (fun i => Event.call i none), 0⟩,
    ?_, rfl, ?_, ?_, ?_, rfl, ?_⟩
  · simpa using hatt
  · intro i
    exact count_call_map_arg ids (some v) i
  · intro i
    exact count_call_map_of_ne_arg ids i (by simp)
  · simpa using hdet
  · intro i
    rw [List.count_append, count_call_map_arg,
      count_call_map_of_ne_arg ids i (by simp)]
    omega

/-! Support for lists made only of cleanup-returning callback handles. -/

theorem detachEvents_cons_key_not_mem (refs : List PossibleRef) (k : PossibleRef)
    (v : Option Cleanup) (m : CleanupMap) (h : k ∉ refs) :
    detachEvents (V := V) refs ((k, v) :: m) = detachEvents refs m := by
  induction refs with
  | nil => rfl
  | cons r rest ih =>
    have hk : ¬(k = r) := fun he => h (by simp [he])
    rw [detachEvents_cons, detachEvents_cons, ih (fun hx => h (by simp [hx]))]
    congr 1
    simp [detachStepEvents, mapGet, hk]

theorem mkRet_injective : Function.Injective mkRet := by
  intro a b h
  injection h

theorem attachPairs_mkRet_cons (i : Nat) (rest : List PossibleRef) (n : Nat) :
    attachPairs (mkRet i :: rest) n =
      (mkRet i, some ⟨n, false⟩) :: attachPairs rest (n + 1) := by
  simp [attachPairs, mkRet, attachResult, tokCount]

theorem detachEvents_mkRet (ids : List Nat) :
    ids.Nodup → ∀ n : Nat,
      detachEvents (V := V) (ids.map mkRet) (attachPairs (ids.map mkRet) n) =
        (List.range' n ids.length).map Event.cleanupRun := by
  induction ids with
  | nil =>
    intro _ n
    rfl
  | cons i rest ih =>
    intro hnd n
    have hirest : i ∉ rest := (List.nodup_cons.mp hnd).1
    have hnotmem : mkRet i ∉ rest.map mkRet := by
      intro hmem
      rw [List.mem_map] at hmem
      obtain ⟨i₁, hi₁, he⟩ := hmem
      exact hirest (mkRet_injective he ▸ hi₁)
    rw [List.map_cons, attachPairs_mkRet_cons, detachEvents_cons,
      detachEvents_cons_key_not_mem _ _ _ _ hnotmem,
      ih (List.nodup_cons.mp hnd).2 (n + 1)]
    have hstep : detachStepEvents (V := V)
        ((mkRet i, some ⟨n, false⟩) :: attachPairs (rest.map mkRet) (n + 1)) (mkRet i) =
        [Event.cleanupRun n] := by
      simp [detachStepEvents, mapGet]
    rw [hstep, List.length_cons, List.range'_succ]
    rfl

theorem count_cleanupRun_range [DecidableEq V] (s len t : Nat) :
    ((List.range' s len).map (Event.cleanupRun (V := V))).count (.cleanupRun t) =
      if s ≤ t ∧ t < s + len then 1 else 0 := by
  induction len generalizing s with
  | zero =>
    rw [if_neg (by omega)]
    rfl
  | succ len ih =>
    rw [List.range'_succ, List.map_cons, List.count_cons, ih (s + 1)]
    simp only [beq_iff_eq]
    by_cases h : t = s
    · subst h
      rw [if_pos rfl, if_neg (by omega), if_pos (by omega)]
    · have hne : ¬(Event.cleanupRun (V := V) s = Event.cleanupRun t) := by
        intro he
        injection he with he₁
        exact h he₁.symm
      rw [if_neg hne]
      split_ifs <;> omega

/-- C2 counterexample: the claim quantifies over lists that may repeat the
same handle.  For the list holding the same cleanup-returning handle
twice, attaching mints two cleanup actions (tokens 0 and 1) but the
registry, keyed by handle identity, keeps only the second; detaching then
runs cleanup 1 twice and cleanup 0 never, instead of running each
occurrence-cleanup exactly once. -/
theorem claim_C2_cex :
    mergeRefs [mkRet 0, mkRet 0] (some (37 : Nat)) [] ⟨[], 0⟩ =
      .ok ([(mkRet 0, some ⟨1, false⟩)],
        ⟨[.call 0 (some 37), .call 0 (some 37)], 2⟩) ∧
    mergeRefs [mkRet 0, mkRet 0] none [(mkRet 0, some ⟨1, false⟩)]
        ⟨[.call 0 (some 37), .call 0 (some 37)], 2⟩ =
      .ok ([], ⟨[.call 0 (some 37), .call 0 (some 37), .cleanupRun 1, .cleanupRun 1], 2⟩) ∧
    ([Event.call 0 (some 37), Event.call 0 (some 37), Event.cleanupRun 1,
      Event.cleanupRun 1] : List (Event Nat)).count (.cleanupRun 0) = 0 ∧
    ([Event.call 0 (some 37), Event.call 0 (some 37), Event.cleanupRun 1,
      Event.cleanupRun 1] : List (Event Nat)).count (.cleanupRun 1) = 2 := by
  refine ⟨?_, ?_, ?_, ?_⟩ <;> rfl

/-- C2 (amended: restricted to lists without duplicate handles): for every
list of pairwise-distinct cleanup-returning callback handles, attaching
with a non-null `v` invokes each handle exactly once with `v` and runs no
cleanup action, storing for the j-th handle the cleanup action with token
j; detaching runs exactly the minted cleanup actions, each exactly once,
and never re-invokes any callback with null. -/
theorem claim_C2 {V : Type} [DecidableEq V] (ids : List Nat) (v : V) (hnd : ids.Nodup) :
    ∃ (m₁ : CleanupMap) (w₁ w₂ : World V),
      mergeRefs (ids.map mkRet) (some v) [] ⟨[], 0⟩ = .ok (m₁, w₁) ∧
      w₁.trace = ids.map (fun i => Event.call i (some v)) ∧
      (∀ i, w₁.trace.count (.call i (some v)) = ids.count i) ∧
      (∀ t, w₁.trace.count (.cleanupRun t) = 0) ∧
      (∀ j (hj : j < ids.length),
        mapGet m₁ (mkRet (ids.get ⟨j, hj⟩)) = some (some ⟨j, false⟩)) ∧
      mergeRefs (ids.map mkRet) none m₁ w₁ = .ok ([], w₂) ∧
      w₂.trace = ids.map (fun i => Event.call i (some v)) ++
        (List.range' 0 ids.length).map Event.cleanupRun ∧
      (∀ t, w₂.trace.count (.cleanupRun t) = if t < ids.length then 1 else 0) ∧
      (∀ i, w₂.trace.count (.call i none) = 0) := by
  have hndm : (ids.map mkRet).Nodup := hnd.map mkRet_injective
  have hb : ∀ r ∈ ids.map mkRet, benign r = true := by
    intro r hr
    rw [List.mem_map] at hr
    obtain ⟨i, _, hi⟩ := hr
    rw [← hi]
    rfl
  have hpairs : attachMapFrom [] (ids.map mkRet) 0 = attachPairs (ids.map mkRet) 0 := by
    have h := attachMapFrom_of_fresh (ids.map mkRet) hndm [] 0 (by intro r _ hk; cases hk)
    simpa using h
  have hag : attachEvents (ids.map mkRet) v = ids.map (fun i => Event.call i (some v)) :=
    attachEvents_map_call ids v mkRet (fun i => ⟨true, false, false, rfl⟩)
  have hm : ∀ r ∈ ids.map mkRet, ∀ c : Cleanup,
      mapGet (attachMapFrom [] (ids.map mkRet) 0) r = some (some c) → c.cthr = false := by
    intro r _ c hc
    refine attachMap_cthr_false _ [] 0 hb ?_ r c hc
    intro r₁ c₁ h₁
    cases h₁
  have hatt := mergeRefs_attach (ids.map mkRet) v [] [] 0 hb
  have hdet := mergeRefs_detach (ids.map mkRet) (attachMapFrom [] (ids.map mkRet) 0)
    ([] ++ attachEvents (ids.map mkRet) v) (0 + numCleanups (ids.map mkRet)) hb hm
  have hde : detachEvents (V := V) (ids.map mkRet) (attachMapFrom [] (ids.map mkRet) 0) =
      (List.range' 0 ids.length).map Event.cleanupRun := by
    rw [hpairs]
    exact detachEvents_mkRet ids hnd 0
  rw [hag] at hatt
  rw [hag, hde, detachFresh_attachMap_sum_zero] at hdet
  refine ⟨attachMapFrom [] (ids.map mkRet) 0,
    ⟨ids.map (fun i => Event.call i (some v)), 0 + numCleanups (ids.map mkRet)⟩,
    ⟨ids.map (fun i => Event.call i (some v)) ++
      (List.range' 0 ids.length).map Event.cleanupRun,
      0 + numCleanups (ids.map mkRet) + 0⟩,
    ?_, rfl, ?_, ?_, ?_, ?_, rfl, ?_, ?_⟩
  · simpa using hatt
  · intro i
    exact count_call_map_arg ids (some v) i
  · intro t
    exact count_cleanupRun_map_call ids (some v) t
  · intro j hj
    have hjm : j < (ids.map mkRet).length := by simpa using hj
    have h := mapGet_attachPairs_get (ids.map mkRet) hndm 0 j hjm
    have hget : (ids.map mkRet).get ⟨j, hjm⟩ = mkRet (ids.get ⟨j, hj⟩) := by
      simp
    have htake : numCleanups ((ids.map mkRet).take j) = j := by
      rw [← List.map_take, numCleanups_mkRet, List.length_take]
      omega
    rw [hpairs, ← hget]
    rw [h, hget, htake]
    have hres : attachResult (mkRet (ids.get ⟨j, hj⟩)) (0 + j) = some ⟨j, false⟩ := by
      simp [mkRet, attachResult]
    rw [hres]
  · simpa using hdet
  · intro t
    rw [List.count_append, count_cleanupRun_map_call, count_cleanupRun_range]
    split_ifs <;> omega
  · intro i
    rw [List.count_append, count_call_map_of_ne_arg ids i (by simp)]
    have h0 : ((List.range' 0 ids.length).map (Event.cleanupRun (V := V))).count
        (.call i none) = 0 := by
      refine List.count_eq_zero.mpr ?_
      intro hmem
      rw [List.mem_map] at hmem
      obtain ⟨j, _, hj⟩ := hmem
      cases hj
    rw [h0]

/-- Witness for the amended C2 at the two-handle list with channels 0 and
1 and value 37. -/
theorem claim_C2_witness :
    ∃ (m₁ : CleanupMap) (w₁ w₂ : World Nat),
      mergeRefs ([0, 1].map mkRet) (some (37 : Nat)) [] ⟨[], 0⟩ = .ok (m₁, w₁) ∧
      w₁.trace = [0, 1].map (fun i => Event.call i (some 37)) ∧
      (∀ i, w₁.trace.count (.call i (some 37)) = [0, 1].count i) ∧
      (∀ t, w₁.trace.count (.cleanupRun t) = 0) ∧
      (∀ j (hj : j < [0, 1].length),
        mapGet m₁ (mkRet ([0, 1].get ⟨j, hj⟩)) = some (some ⟨j, false⟩)) ∧
      mergeRefs ([0, 1].map mkRet) none m₁ w₁ = .ok ([], w₂) ∧
      w₂.trace = [0, 1].map (fun i => Event.call i (some 37)) ++
        (List.range' 0 [0, 1].length).map Event.cleanupRun ∧
      (∀ t, w₂.trace.count (.cleanupRun t) = if t < [0, 1].length then 1 else 0) ∧
      (∀ i, w₂.trace.count (.call i none) = 0) :=
  claim_C2 [0, 1] 37 (by decide)

/-- C4: the assignment primitive satisfies its three-case contract.  An
absent handle is a no-op returning nothing; a (non-raising) callback is
invoked with the value and its return value, a cleanup when `ret` and
nothing otherwise, is passed through uninterpreted; a mutable cell has its
stored field overwritten with the value, returning nothing. -/
theorem claim_C4 {V : Type} :
    (∀ (value : Option V) (w : World V), assignRef .undef value w = .ok (w, none)) ∧
    (∀ (i : Nat) (ret cthr : Bool) (value : Option V) (tr : List (Event V)) (n : Nat),
      assignRef (.callback i ret false cthr) value ⟨tr, n⟩ =
        .ok (⟨tr ++ [.call i value], n + if ret then 1 else 0⟩,
          if ret then some ⟨n, cthr⟩ else none)) ∧
    (∀ (i : Nat) (value : Option V) (tr : List (Event V)) (n : Nat) (init : Option V),
      assignRef (.cellRef i) value ⟨tr, n⟩ = .ok (⟨tr ++ [.cellWrite i value], n⟩, none) ∧
      cellValueFrom init (tr ++ [.cellWrite i value]) i = value) := by
  refine ⟨fun value w => rfl, fun i ret cthr value tr n => ?_,
    fun i value tr n init => ⟨rfl, ?_⟩⟩
  · cases ret
    · simpa using assignRef_callback_noret i cthr value tr n
    · simpa using assignRef_callback_ret i cthr value tr n
  · rw [cellValueFrom, List.foldl_append]
    simp

/-- C5: when the combined handle is invoked with a non-null value `v` on a
list of pairwise-distinct non-raising handles, the assignment primitive is
applied to every handle in sequence order, unconditionally and regardless
of shape (the attach trace is the concatenation of the per-handle
primitive events in list order), and the result of each application, a
cleanup action or the explicit none marker, is stored in the registry
keyed by that handle (the j-th handle maps to its own primitive result at
the token counter reached after the first j handles). -/
theorem claim_C5 {V : Type} (refs : List PossibleRef) (v : V)
    (hnd : refs.Nodup) (hb : ∀ r ∈ refs, benign r = true) :
    mergeRefs refs (some v) [] ⟨[], 0⟩ =
      .ok (attachPairs refs 0,
        ⟨(refs.map (attachEventsOf v)).flatten, numCleanups refs⟩) ∧
    ∀ j (hj : j < refs.length),
      mapGet (attachPairs refs 0) (refs.get ⟨j, hj⟩) =
        some (attachResult (refs.get ⟨j, hj⟩) (numCleanups (refs.take j))) := by
  constructor
  · have h := mergeRefs_attach refs v [] [] 0 hb
    have hp : attachMapFrom [] refs 0 = attachPairs refs 0 := by
      have h₂ := attachMapFrom_of_fresh refs hnd [] 0 (by intro r _ hk; cases hk)
      simpa using h₂
    rw [hp] at h
    simpa [attachEvents] using h
  · intro j hj
    have h := mapGet_attachPairs_get refs hnd 0 j hj
    simpa using h

/-- Witness for C5 at a three-shape handle list and value 5. -/
theorem claim_C5_witness :
    mergeRefs [mkRet 0, PossibleRef.cellRef 1, PossibleRef.undef] (some (5 : Nat)) [] ⟨[], 0⟩ =
      .ok (attachPairs [mkRet 0, PossibleRef.cellRef 1, PossibleRef.undef] 0,
        ⟨([mkRet 0, PossibleRef.cellRef 1, PossibleRef.undef].map
            (attachEventsOf (5 : Nat))).flatten,
          numCleanups [mkRet 0, PossibleRef.cellRef 1, PossibleRef.undef]⟩) ∧
    ∀ j (hj : j < [mkRet 0, PossibleRef.cellRef 1, PossibleRef.undef].length),
      mapGet (attachPairs [mkRet 0, PossibleRef.cellRef 1, PossibleRef.undef] 0)
          ([mkRet 0, PossibleRef.cellRef 1, PossibleRef.undef].get ⟨j, hj⟩) =
        some (attachResult ([mkRet 0, PossibleRef.cellRef 1, PossibleRef.undef].get ⟨j, hj⟩)
          (numCleanups ([mkRet 0, PossibleRef.cellRef 1, PossibleRef.undef].take j))) :=
  claim_C5 [mkRet 0, PossibleRef.cellRef 1, PossibleRef.undef] 5 (by decide) (by decide)

/-- C6: between an attach and its matching detach the registry holds
exactly one entry per handle and no entry for anything outside the list;
a completed detach leaves the registry empty; and the trace increment of
any cycle is one fixed event list `D` with every token shifted by the
starting counter, so after a detach (registry empty, counter advanced) the
next attach/detach cycle of the same instance behaves identically to the
first up to the internal token numbering. -/
theorem claim_C6 {V : Type} (refs : List PossibleRef) (v : V)
    (hb : ∀ r ∈ refs, benign r = true) :
    ∃ (D : List (Event V)) (k : Nat), ∀ (tr : List (Event V)) (n : Nat),
      ∃ m₁ : CleanupMap,
        mergeRefs refs (some v) [] ⟨tr, n⟩ =
          .ok (m₁, ⟨tr ++ attachEvents refs v, n + k⟩) ∧
        (∀ r ∈ refs, countKey m₁ r = 1) ∧
        (∀ p ∈ m₁, p.1 ∈ refs) ∧
        mergeRefs refs none m₁ ⟨tr ++ attachEvents refs v, n + k⟩ =
          .ok ([], ⟨tr ++ shiftTokens n D, n + k⟩) := by
  refine ⟨attachEvents refs v ++ detachEvents refs (attachMapFrom [] refs 0),
    numCleanups refs, ?_⟩
  intro tr n
  obtain ⟨h₁, h₂⟩ := cycle_eq refs v tr n hb
  refine ⟨attachMapFrom [] refs n, h₁, ?_, ?_, h₂⟩
  · intro r hr
    have hle := countKey_attachMapFrom_le_one refs [] n
      (fun x => Nat.zero_le 1) r
    have hmem : r ∈ keysOf (attachMapFrom [] refs n) :=
      mem_keysOf_attachMapFrom refs [] n hr
    have hpos : 0 < countKey (attachMapFrom [] refs n) r :=
      List.count_pos_iff.mpr hmem
    omega
  · intro p hp
    have hmem : p.1 ∈ keysOf (attachMapFrom [] refs n) := by
      rw [keysOf, List.mem_map]
      exact ⟨p, hp, rfl⟩
    rcases keysOf_attachMapFrom_subset refs [] n hmem with h | h
    · simp [keysOf] at h
    · exact h

/-- Witness for C6 at a two-handle list and value 3. -/
theorem claim_C6_witness :
    ∃ (D : List (Event Nat)) (k : Nat), ∀ (tr : List (Event Nat)) (n : Nat),
      ∃ m₁ : CleanupMap,
        mergeRefs [mkRet 0, PossibleRef.cellRef 1] (some (3 : Nat)) [] ⟨tr, n⟩ =
          .ok (m₁, ⟨tr ++ attachEvents [mkRet 0, PossibleRef.cellRef 1] (3 : Nat), n + k⟩) ∧
        (∀ r ∈ [mkRet 0, PossibleRef.cellRef 1], countKey m₁ r = 1) ∧
        (∀ p ∈ m₁, p.1 ∈ [mkRet 0, PossibleRef.cellRef 1]) ∧
        mergeRefs [mkRet 0, PossibleRef.cellRef 1] none m₁
            ⟨tr ++ attachEvents [mkRet 0, PossibleRef.cellRef 1] (3 : Nat), n + k⟩ =
          .ok ([], ⟨tr ++ shiftTokens n D, n + k⟩) :=
  claim_C6 [mkRet 0, PossibleRef.cellRef 1] 3 (by decide)

/-! Support for mutable-cell handles: the value of a cell after a trace. -/

theorem cellValueFrom_cons (init : Option V) (e : Event V) (tr : List (Event V)) (i : Nat) :
    cellValueFrom init (e :: tr) i =
      cellValueFrom (match e with
        | .cellWrite j x => if j = i then x else init
        | _ => init) tr i := rfl

theorem cellValueFrom_const (a : Option V) (tr : List (Event V)) (i : Nat)
    (h : ∀ x, Event.cellWrite i x ∈ tr → x = a) : cellValueFrom a tr i = a := by
  induction tr with
  | nil => rfl
  | cons e rest ih =>
    have hrest : ∀ x, Event.cellWrite i x ∈ rest → x = a := fun x hx => h x (by simp [hx])
    rw [cellValueFrom_cons]
    cases e with
    | cellWrite j x =>
      by_cases hj : j = i
      · subst hj
        have hx : x = a := h x (by simp)
        subst hx
        simp only [if_pos rfl]
        exact ih hrest
      · simp only [hj, if_false]
        exact ih hrest
    | call j x => exact ih hrest
    | cleanupRun t => exact ih hrest

theorem cellValueFrom_of_writes (tr : List (Event V)) (i : Nat) (a : Option V) :
    ∀ init : Option V, (∀ x, Event.cellWrite i x ∈ tr → x = a) →
      Event.cellWrite i a ∈ tr → cellValueFrom init tr i = a := by
  induction tr with
  | nil =>
    intro init _ hmem
    cases hmem
  | cons e rest ih =>
    intro init hall hmem
    have hallrest : ∀ x, Event.cellWrite i x ∈ rest → x = a := fun x hx => hall x (by simp [hx])
    rw [cellValueFrom_cons]
    cases e with
    | cellWrite j x =>
      by_cases hj : j = i
      · subst hj
        have hx : x = a := hall x (by simp)
        subst hx
        simp only [if_pos rfl]
        exact cellValueFrom_const x rest _ hallrest
      · simp only [hj, if_false]
        refine ih init hallrest ?_
        rcases List.mem_cons.mp hmem with h | h
        · injection h with h₁ h₂
          exact absurd h₁.symm hj
        · exact h
    | call j x =>
      refine ih init hallrest ?_
      rcases List.mem_cons.mp hmem with h | h
      · cases h
      · exact h
    | cleanupRun t =>
      refine ih init hallrest ?_
      rcases List.mem_cons.mp hmem with h | h
      · cases h
      · exact h

theorem attachEvents_cellWrite_val (refs : List PossibleRef) (v : V) (cid : Nat) :
    ∀ x, Event.cellWrite cid x ∈ attachEvents refs v → x = some v := by
  induction refs with
  | nil =>
    intro x hx
    cases hx
  | cons r rest ih =>
    intro x hx
    rw [attachEvents_cons, List.mem_append] at hx
    rcases hx with hx | hx
    · cases r with
      | undef => cases hx
      | callback i ret thr cthr => simp [attachEventsOf] at hx
      | cellRef i =>
        simp [attachEventsOf] at hx
        exact hx.2
    · exact ih x hx

theorem attachEvents_cellWrite_mem (refs : List PossibleRef) (v : V) (cid : Nat) :
    PossibleRef.cellRef cid ∈ refs →
      Event.cellWrite cid (some v) ∈ attachEvents refs v := by
  induction refs with
  | nil =>
    intro h
    cases h
  | cons r rest ih =>
    intro h
    rw [attachEvents_cons, List.mem_append]
    rcases List.mem_cons.mp h with h₁ | h₁
    · refine Or.inl ?_
      rw [← h₁]
      simp [attachEventsOf]
    · exact Or.inr (ih h₁)

theorem detachStepEvents_cellWrite (m : CleanupMap) (r : PossibleRef) (cid : Nat)
    {x : Option V} (hx : Event.cellWrite cid x ∈ detachStepEvents (V := V) m r) :
    x = none := by
  rw [detachStepEvents] at hx
  cases hg : mapGet m r with
  | some oc =>
    cases oc with
    | some c =>
      rw [hg] at hx
      simp at hx
    | none =>
      rw [hg] at hx
      cases r with
      | undef => cases hx
      | callback i ret thr cthr => simp [fallbackEventsOf] at hx
      | cellRef i =>
        simp [fallbackEventsOf] at hx
        exact hx.2
  | none =>
    rw [hg] at hx
    cases r with
    | undef => cases hx
    | callback i ret thr cthr => simp [fallbackEventsOf] at hx
    | cellRef i =>
      simp [fallbackEventsOf] at hx
      exact hx.2

theorem detachEvents_cellWrite_val (refs : List PossibleRef) (m : CleanupMap) (cid : Nat) :
    ∀ x, Event.cellWrite cid x ∈ detachEvents (V := V) refs m → x = none := by
  induction refs with
  | nil =>
    intro x hx
    cases hx
  | cons r rest ih =>
    intro x hx
    rw [detachEvents_cons, List.mem_append] at hx
    rcases hx with hx | hx
    · exact detachStepEvents_cellWrite m r cid hx
    · exact ih x hx

theorem detachEvents_cellWrite_mem (refs : List PossibleRef) (m : CleanupMap) (cid : Nat)
    (hc : ∀ c : Cleanup, mapGet m (.cellRef cid) ≠ some (some c)) :
    PossibleRef.cellRef cid ∈ refs →
      Event.cellWrite cid none ∈ detachEvents (V := V) refs m := by
  induction refs with
  | nil =>
    intro h
    cases h
  | cons r rest ih =>
    intro h
    rw [detachEvents_cons, List.mem_append]
    rcases List.mem_cons.mp h with h₁ | h₁
    · refine Or.inl ?_
      rw [← h₁, detachStepEvents]
      cases hg : mapGet m (PossibleRef.cellRef cid) with
      | some oc =>
        cases oc with
        | some c => exact absurd hg (hc c)
        | none => simp [fallbackEventsOf]
      | none => simp [fallbackEventsOf]
    · exact Or.inr (ih h₁)

/-- C7: for every handle list containing the mutable cell on channel
`cid`, attaching the combined handle with a non-null `v` leaves the cell
holding `v` and the registry holding the explicit no-cleanup marker for
the cell (never a cleanup action); detaching sets the cell back to null. -/
theorem claim_C7 {V : Type} (refs : List PossibleRef) (v : V) (cid : Nat)
    (init : Option V) (hb : ∀ r ∈ refs, benign r = true)
    (hc : PossibleRef.cellRef cid ∈ refs) :
    ∃ (m₁ : CleanupMap) (w₁ w₂ : World V),
      mergeRefs refs (some v) [] ⟨[], 0⟩ = .ok (m₁, w₁) ∧
      cellValueFrom init w₁.trace cid = some v ∧
      mapGet m₁ (.cellRef cid) = some none ∧
      mergeRefs refs none m₁ w₁ = .ok ([], w₂) ∧
      cellValueFrom init w₂.trace cid = none := by
  have hget : mapGet (attachMapFrom [] refs 0) (.cellRef cid) = some none :=
    mapGet_attachMapFrom_none refs [] 0 hc (fun j => rfl)
  have hm : ∀ r ∈ refs, ∀ c : Cleanup,
      mapGet (attachMapFrom [] refs 0) r = some (some c) → c.cthr = false := by
    intro r _ c hcc
    refine attachMap_cthr_false refs [] 0 hb ?_ r c hcc
    intro r₁ c₁ h₁
    cases h₁
  have hatt := mergeRefs_attach refs v [] [] 0 hb
  have hdet := mergeRefs_detach refs (attachMapFrom [] refs 0)
    ([] ++ attachEvents refs v) (0 + numCleanups refs) hb hm
  refine ⟨attachMapFrom [] refs 0, ⟨[] ++ attachEvents refs v, 0 + numCleanups refs⟩,
    ⟨[] ++ attachEvents refs v ++ detachEvents refs (attachMapFrom [] refs 0),
      0 + numCleanups refs + (refs.map (detachFresh (attachMapFrom [] refs 0))).sum⟩,
    hatt, ?_, hget, hdet, ?_⟩
  · show cellValueFrom init ([] ++ attachEvents refs v) cid = some v
    rw [List.nil_append]
    exact cellValueFrom_of_writes (attachEvents refs v) cid (some v) init
      (attachEvents_cellWrite_val refs v cid) (attachEvents_cellWrite_mem refs v cid hc)
  · show cellValueFrom init ([] ++ attachEvents refs v ++
      detachEvents refs (attachMapFrom [] refs 0)) cid = none
    rw [List.nil_append, cellValueFrom, List.foldl_append, ← cellValueFrom, ← cellValueFrom]
    refine cellValueFrom_of_writes _ cid none _
      (detachEvents_cellWrite_val refs _ cid) ?_
    refine detachEvents_cellWrite_mem refs _ cid ?_ hc
    intro c hcc
    rw [hget] at hcc
    injection hcc with h₁
    cases h₁

/-- Witness for C7 at the list holding one callback and the cell on
channel 1, value 9, initial cell value none. -/
theorem claim_C7_witness :
    ∃ (m₁ : CleanupMap) (w₁ w₂ : World Nat),
      mergeRefs [mkRet 0, PossibleRef.cellRef 1] (some (9 : Nat)) [] ⟨[], 0⟩ =
        .ok (m₁, w₁) ∧
      cellValueFrom none w₁.trace 1 = some 9 ∧
      mapGet m₁ (.cellRef 1) = some none ∧
      mergeRefs [mkRet 0, PossibleRef.cellRef 1] none m₁ w₁ = .ok ([], w₂) ∧
      cellValueFrom none w₂.trace 1 = none :=
  claim_C7 [mkRet 0, PossibleRef.cellRef 1] 9 1 none (by decide) (by decide)

/-! Support for absent handles. -/

theorem dropUndef_cons_undef (rest : List PossibleRef) :
    dropUndef (.undef :: rest) = dropUndef rest := by
  simp [dropUndef, List.filter_cons, isUndef]

theorem dropUndef_cons_keep (r : PossibleRef) (rest : List PossibleRef)
    (h : isUndef r = false) : dropUndef (r :: rest) = r :: dropUndef rest := by
  simp [dropUndef, List.filter_cons, h]

theorem attachEvents_dropUndef (refs : List PossibleRef) (v : V) :
    attachEvents (dropUndef refs) v = attachEvents refs v := by
  induction refs with
  | nil => rfl
  | cons r rest ih =>
    cases r with
    | undef =>
      rw [dropUndef_cons_undef, ih, attachEvents_cons]
      rfl
    | callback i ret thr cthr =>
      rw [dropUndef_cons_keep (.callback i ret thr cthr) rest rfl,
        attachEvents_cons, attachEvents_cons, ih]
    | cellRef i =>
      rw [dropUndef_cons_keep (.cellRef i) rest rfl,
        attachEvents_cons, attachEvents_cons, ih]

theorem detachEvents_dropUndef (refs : List PossibleRef) (m : CleanupMap)
    (h : ∀ c : Cleanup, mapGet m .undef ≠ some (some c)) :
    detachEvents (V := V) (dropUndef refs) m = detachEvents refs m := by
  induction refs with
  | nil => rfl
  | cons r rest ih =>
    cases r with
    | undef =>
      rw [dropUndef_cons_undef, ih, detachEvents_cons]
      have hstep : detachStepEvents (V := V) m .undef = [] := by
        rw [detachStepEvents]
        cases hg : mapGet m .undef with
        | some oc =>
          cases oc with
          | some c => exact absurd hg (h c)
          | none => rfl
        | none => rfl
      rw [hstep, List.nil_append]
    | callback i ret thr cthr =>
      rw [dropUndef_cons_keep (.callback i ret thr cthr) rest rfl,
        detachEvents_cons, detachEvents_cons, ih]
    | cellRef i =>
      rw [dropUndef_cons_keep (.cellRef i) rest rfl,
        detachEvents_cons, detachEvents_cons, ih]

/-- C8 counterexample: the claim says absent handles never appear as keys
in the cleanup registry, but the attach branch stores an entry for every
handle unconditionally, the absent one included: after attaching the
one-element list holding only the absent handle, the registry has the
absent handle as a key (with the stored null marker), not no entry. -/
theorem claim_C8_cex :
    mergeRefs [PossibleRef.undef] (some (7 : Nat)) [] ⟨[], 0⟩ =
      .ok ([(PossibleRef.undef, none)], ⟨[], 0⟩) ∧
    mapGet [(PossibleRef.undef, none)] .undef ≠ none := by
  constructor
  · rfl
  · simp [mapGet]

/-- C8 (amended): absent handles are no-ops on both attach and detach,
the primitive does nothing on them and the cycle trace is exactly that of
the handle list with all absent handles removed, but they DO appear as
registry keys: each absent handle is stored with the explicit no-cleanup
marker (never with a cleanup action). -/
theorem claim_C8 {V : Type} (refs : List PossibleRef) (v : V)
    (hb : ∀ r ∈ refs, benign r = true) (hu : PossibleRef.undef ∈ refs) :
    (∀ (value : Option V) (w : World V), assignRef .undef value w = .ok (w, none)) ∧
    ∃ (m₁ : CleanupMap) (w₁ w₂ : World V),
      mergeRefs refs (some v) [] ⟨[], 0⟩ = .ok (m₁, w₁) ∧
      mapGet m₁ .undef = some none ∧
      w₁.trace = attachEvents (dropUndef refs) v ∧
      mergeRefs refs none m₁ w₁ = .ok ([], w₂) ∧
      w₂.trace = attachEvents (dropUndef refs) v ++ detachEvents (dropUndef refs) m₁ := by
  have hget : mapGet (attachMapFrom [] refs 0) .undef = some none :=
    mapGet_attachMapFrom_none refs [] 0 hu (fun j => rfl)
  have hnoc : ∀ c : Cleanup, mapGet (attachMapFrom [] refs 0) .undef ≠ some (some c) := by
    intro c hc
    rw [hget] at hc
    injection hc with h₁
    cases h₁
  have hm : ∀ r ∈ refs, ∀ c : Cleanup,
      mapGet (attachMapFrom [] refs 0) r = some (some c) → c.cthr = false := by
    intro r _ c hcc
    refine attachMap_cthr_false refs [] 0 hb ?_ r c hcc
    intro r₁ c₁ h₁
    cases h₁
  have hatt := mergeRefs_attach refs v [] [] 0 hb
  have hdet := mergeRefs_detach refs (attachMapFrom [] refs 0)
    ([] ++ attachEvents refs v) (0 + numCleanups refs) hb hm
  refine ⟨fun value w => rfl,
    attachMapFrom [] refs 0, ⟨[] ++ attachEvents refs v, 0 + numCleanups refs⟩,
    ⟨[] ++ attachEvents refs v ++ detachEvents refs (attachMapFrom [] refs 0),
      0 + numCleanups refs + (refs.map (detachFresh (attachMapFrom [] refs 0))).sum⟩,
    hatt, hget, ?_, hdet, ?_⟩
  · show [] ++ attachEvents refs v = attachEvents (dropUndef refs) v
    rw [List.nil_append, attachEvents_dropUndef]
  · show [] ++ attachEvents refs v ++ detachEvents refs (attachMapFrom [] refs 0) =
      attachEvents (dropUndef refs) v ++ detachEvents (dropUndef refs) (attachMapFrom [] refs 0)
    rw [List.nil_append, attachEvents_dropUndef, detachEvents_dropUndef _ _ hnoc]

/-- Witness for the amended C8 at the list holding the absent handle and
one callback, value 2. -/
theorem claim_C8_witness :
    (∀ (value : Option Nat) (w : World Nat), assignRef .undef value w = .ok (w, none)) ∧
    ∃ (m₁ : CleanupMap) (w₁ w₂ : World Nat),
      mergeRefs [PossibleRef.undef, mkRet 3] (some (2 : Nat)) [] ⟨[], 0⟩ = .ok (m₁, w₁) ∧
      mapGet m₁ .undef = some none ∧
      w₁.trace = attachEvents (dropUndef [PossibleRef.undef, mkRet 3]) (2 : Nat) ∧
      mergeRefs [PossibleRef.undef, mkRet 3] none m₁ w₁ = .ok ([], w₂) ∧
      w₂.trace = attachEvents (dropUndef [PossibleRef.undef, mkRet 3]) (2 : Nat) ++
        detachEvents (dropUndef [PossibleRef.undef, mkRet 3]) m₁ :=
  claim_C8 [PossibleRef.undef, mkRet 3] 2 (by decide) (by decide)

/-- C9: the combinator raises nothing of its own and translates nothing.
If a handle raises during attach (here the callback on channel `i` with
its raise flag set), the handles before it in sequence order have already
been invoked (their events are in the trace), the raising handle itself
was invoked, the handles after it are not reached, the registry keeps only
the entries set before the raise, and the error propagates to the caller.
Likewise if a captured cleanup action raises during detach: earlier
handles are processed, the trace ends with the raising cleanup invocation,
the rest of the iteration is aborted, and the registry is not cleared. -/
theorem claim_C9 {V : Type} (v : V) (xs ys : List PossibleRef) (i : Nat) (ret cthr : Bool)
    (tr : List (Event V)) (n : Nat) (m : CleanupMap) (t : Nat) (bad : PossibleRef)
    (hxs : ∀ r ∈ xs, benign r = true)
    (hbad : mapGet m bad = some (some ⟨t, true⟩))
    (hm : ∀ r ∈ xs, ∀ c : Cleanup, mapGet m r = some (some c) → c.cthr = false) :
    mergeRefs (xs ++ .callback i ret true cthr :: ys) (some v) [] ⟨tr, n⟩ =
      .error (attachMapFrom [] xs n,
        ⟨tr ++ attachEvents xs v ++ [.call i (some v)], n + numCleanups xs⟩) ∧
    mergeRefs (xs ++ bad :: ys) none m ⟨tr, n⟩ =
      .error (m, ⟨tr ++ detachEvents xs m ++ [.cleanupRun t],
        n + (xs.map (detachFresh m)).sum⟩) := by
  constructor
  · show attachAll (xs ++ PossibleRef.callback i ret true cthr :: ys) v [] ⟨tr, n⟩ = _
    rw [attachAll_append xs _ v [] tr n hxs]
    simp only [attachAll, assignRef_callback_throw]
  · simp only [mergeRefs]
    rw [detachLoop_append xs (bad :: ys) m tr n hxs hm]
    simp [detachLoop, hbad, push, List.append_assoc]

/-- Witness for C9: one benign callback before the raising position, one
cell handle after it, and a registry entry whose cleanup raises. -/
theorem claim_C9_witness :
    mergeRefs ([mkNoRet 5] ++ .callback 7 false true false :: [PossibleRef.cellRef 9])
        (some (1 : Nat)) [] ⟨[], 0⟩ =
      .error (attachMapFrom [] [mkNoRet 5] 0,
        ⟨[] ++ attachEvents [mkNoRet 5] (1 : Nat) ++ [.call 7 (some 1)],
          0 + numCleanups [mkNoRet 5]⟩) ∧
    mergeRefs ([mkNoRet 5] ++ mkRet 2 :: [PossibleRef.cellRef 9]) none
        [(mkRet 2, some ⟨0, true⟩)] ⟨[], 0⟩ =
      .error ([(mkRet 2, some ⟨0, true⟩)],
        ⟨[] ++ detachEvents (V := Nat) [mkNoRet 5] [(mkRet 2, some ⟨0, true⟩)] ++ [.cleanupRun 0],
          0 + ([mkNoRet 5].map (detachFresh [(mkRet 2, some ⟨0, true⟩)])).sum⟩) :=
  claim_C9 1 [mkNoRet 5] [PossibleRef.cellRef 9] 7 false false [] 0
    [(mkRet 2, some ⟨0, true⟩)] 0 (mkRet 2) (by decide) (by decide)
    (by
      intro r hr c hc
      simp at hr
      subst hr
      simp [mapGet, mkRet, mkNoRet] at hc)

/-- Support: membership in the flattened fallback events. -/
theorem mem_fallback_flatten (refs : List PossibleRef) {e : Event V} :
    ∀ {r : PossibleRef}, r ∈ refs → e ∈ fallbackEventsOf (V := V) r →
      e ∈ (refs.map (fallbackEventsOf (V := V))).flatten := by
  induction refs with
  | nil =>
    intro r h _
    cases h
  | cons r₁ rest ih =>
    intro r h he
    rw [List.map_cons, List.flatten_cons, List.mem_append]
    rcases List.mem_cons.mp h with h₁ | h₁
    · subst h₁
      exact Or.inl he
    · exact Or.inr (ih h₁ he)

/-- C10: invoking the combined handle with null while the registry has no
entries (a detach delivered before any attach) does not fail: every handle
falls back to the primitive with null, so the run succeeds, the trace is
exactly the per-handle fallback events in order, every callback handle is
invoked with null and every mutable cell ends at null. -/
theorem claim_C10 {V : Type} (refs : List PossibleRef) (tr : List (Event V)) (n : Nat)
    (init : Option V) (hb : ∀ r ∈ refs, benign r = true) :
    mergeRefs refs none [] ⟨tr, n⟩ =
      .ok ([], ⟨tr ++ (refs.map (fallbackEventsOf (V := V))).flatten,
        n + numCleanups refs⟩) ∧
    (∀ i ret thr cthr, PossibleRef.callback i ret thr cthr ∈ refs →
      Event.call i none ∈ (refs.map (fallbackEventsOf (V := V))).flatten) ∧
    (∀ cid, PossibleRef.cellRef cid ∈ refs →
      cellValueFrom init ((refs.map (fallbackEventsOf (V := V))).flatten) cid = none) := by
  have hemp : ∀ r ∈ refs, ∀ c : Cleanup,
      mapGet ([] : CleanupMap) r = some (some c) → c.cthr = false := by
    intro r _ c hc
    cases hc
  have hfall : detachEvents (V := V) refs [] =
      (refs.map (fallbackEventsOf (V := V))).flatten := by
    refine detachEvents_fallback refs [] ?_
    intro r _ c hc
    cases hc
  refine ⟨?_, ?_, ?_⟩
  · have h := mergeRefs_detach refs [] tr n hb hemp
    rw [hfall] at h
    have hsum : (refs.map (detachFresh ([] : CleanupMap))).sum = numCleanups refs := by
      rw [numCleanups]
      congr 1
    rw [hsum] at h
    exact h
  · intro i ret thr cthr hmem
    refine mem_fallback_flatten refs hmem ?_
    simp [fallbackEventsOf]
  · intro cid hmem
    rw [← hfall]
    refine cellValueFrom_of_writes _ cid none _
      (detachEvents_cellWrite_val refs _ cid) ?_
    refine detachEvents_cellWrite_mem refs _ cid ?_ hmem
    intro c hc
    cases hc

/-- Witness for C10 at the list holding one callback and one cell, from a
fresh (empty) registry. -/
theorem claim_C10_witness :
    mergeRefs [mkNoRet 4, PossibleRef.cellRef 2] none [] ⟨[], 0⟩ =
      .ok ([], ⟨[] ++ ([mkNoRet 4, PossibleRef.cellRef 2].map
          (fallbackEventsOf (V := Nat))).flatten,
        0 + numCleanups [mkNoRet 4, PossibleRef.cellRef 2]⟩) ∧
    (∀ i ret thr cthr, PossibleRef.callback i ret thr cthr ∈
        [mkNoRet 4, PossibleRef.cellRef 2] →
      Event.call i none ∈ ([mkNoRet 4, PossibleRef.cellRef 2].map
        (fallbackEventsOf (V := Nat))).flatten) ∧
    (∀ cid, PossibleRef.cellRef cid ∈ [mkNoRet 4, PossibleRef.cellRef 2] →
      cellValueFrom (some 8) (([mkNoRet 4, PossibleRef.cellRef 2].map
        (fallbackEventsOf (V := Nat))).flatten) cid = none) :=
  claim_C10 [mkNoRet 4, PossibleRef.cellRef 2] [] 0 (some 8) (by decide)

end MergeRef
